import Mathlib

/-!
Shallow embedding of the core game logic of ReactBingo (src/App.tsx).

The board is a JavaScript `Map` keyed by square value; we model it as an
association list preserving insertion order, with `mapGet`/`mapSet`
mirroring `Map.get`/`Map.set` (set replaces in place when the key exists,
otherwise appends).  Randomness is made explicit: `buildSquaresMap` takes
the per-column shuffle as a function argument (the source shuffles with a
random comparator), and `draw` takes the random pick as an index argument.
-/

structure Square where
  value : Nat
  row : Nat
  col : Nat
  drawn : Bool
  inBingo : Bool
  deriving Repr, DecidableEq

abbrev SquaresMap := List (Nat × Square)

/-- Model of `Map.get`: the value stored under `key`, if present. -/
def mapGet (m : SquaresMap) (key : Nat) : Option Square :=
  (m.find? (fun p => p.1 == key)).map Prod.snd

/-- Model of `Map.set`: replace in place when the key exists, else append. -/
def mapSet (m : SquaresMap) (key : Nat) (sq : Square) : SquaresMap :=
  if m.any (fun p => p.1 == key) then
    m.map (fun p => if p.1 == key then (key, sq) else p)
  else
    m ++ [(key, sq)]

/-- Function `buildSquaresMap` from src/App.tsx.  `shuffle c a` is the result of the
random in-place sort of the column array `a` for column `c`; the theorems
assume only that it is a permutation of its input. -/
def buildSquaresMap (dimension : Nat) (shuffle : Nat → List Nat → List Nat) : SquaresMap :=
  (List.range dimension).foldl (fun returnMap columnIndex =>
    let delta := columnIndex * dimension * 3 + 1
    let tmpArray := (List.range (dimension * 3)).map (fun j => delta + j)
    let tmpArray2 := (shuffle columnIndex tmpArray).take dimension
    tmpArray2.enum.foldl (fun m p =>
      mapSet m p.2 { value := p.2, row := p.1, col := columnIndex, inBingo := false, drawn := false })
      returnMap)
    []

inductive ActionType where
  | flagDrawn (square : Nat)
  | flagInBingo (square : Nat)
  | replace (newMap : SquaresMap)
  | reset (dimension : Nat)

/-- Function `squaresReducer` from src/App.tsx. -/
def squaresReducer (shuffle : Nat → List Nat → List Nat) (draft : SquaresMap)
    (action : ActionType) : SquaresMap :=
  match action with
  | .flagDrawn square =>
      match mapGet draft square with
      | none => draft
      | some currentSquare => mapSet draft square { currentSquare with drawn := true }
  | .flagInBingo square =>
      match mapGet draft square with
      | none => draft
      | some currentSquare => mapSet draft square { currentSquare with inBingo := true }
  | .replace newMap => newMap
  | .reset dimension => buildSquaresMap dimension shuffle

/-- Value `allNumbers` from src/App.tsx: the universe `[1, dimension²·3]`. -/
def allNumbers (dimension : Nat) : List Nat :=
  (List.range (dimension * dimension * 3)).map (fun i => i + 1)

/-- Function `checkAndFlagBingo` from src/App.tsx. -/
def checkAndFlagBingo (dimension : Nat) (accumulator : SquaresMap)
    (squaresToCheck : List Square) : SquaresMap :=
  if dimension ≤ squaresToCheck.length then
    squaresToCheck.foldl (fun acc squareData =>
      mapSet acc squareData.value { squareData with inBingo := true }) accumulator
  else accumulator

/-- Function `checkForBingo` from src/App.tsx.  The snapshot `allSquaresArray` is taken
once from the input, exactly as in the source. -/
def checkForBingo (dimension : Nat) (accumulatorSquares : SquaresMap) : SquaresMap :=
  let allSquaresArray := accumulatorSquares.map Prod.snd
  let afterRowsCols := (List.range dimension).foldl (fun acc i =>
    checkAndFlagBingo dimension
      (checkAndFlagBingo dimension acc
        (allSquaresArray.filter (fun s => s.drawn && s.row == i)))
      (allSquaresArray.filter (fun s => s.drawn && s.col == i))) accumulatorSquares
  checkAndFlagBingo dimension
    (checkAndFlagBingo dimension afterRowsCols
      (allSquaresArray.filter (fun s => s.drawn && s.row == s.col)))
    (allSquaresArray.filter (fun s => s.drawn && s.row + s.col == dimension - 1))

/-- Function `draw` from src/App.tsx.  `k` supplies the random pick: the source
computes an index `Math.floor(Math.random() * length)`, always a valid
index; `k % length` ranges over exactly those indices. -/
def draw (dimension : Nat) (squares : SquaresMap) (drawHistory : Finset Nat)
    (k : Nat) : SquaresMap × Finset Nat :=
  let availableRange := (allNumbers dimension).filter (fun entry => !(decide (entry ∈ drawHistory)))
  if availableRange.length = 0 then
    (squares, drawHistory)
  else
    let randomNumberWithinAvailableRange := availableRange.getD (k % availableRange.length) 0
    let tmpDrawHistory := insert randomNumberWithinAvailableRange drawHistory
    match mapGet squares randomNumberWithinAvailableRange with
    | none => (squares, tmpDrawHistory)
    | some randomSquare =>
        (checkForBingo dimension
          (mapSet squares randomSquare.value { randomSquare with drawn := true }),
         tmpDrawHistory)

/-- Function `resetGame` from src/App.tsx: fresh board, empty draw history. -/
def resetGame (dimension : Nat) (shuffle : Nat → List Nat → List Nat) :
    SquaresMap × Finset Nat :=
  (buildSquaresMap dimension shuffle, ∅)

/-! ### Basic facts about the `Map` model -/

/-- The key list of a board. -/
def mapKeys (m : SquaresMap) : List Nat := m.map Prod.fst

/-- The board is keyed by square value (`Map` entries store their own key). -/
def keyedByValue (m : SquaresMap) : Prop := ∀ p ∈ m, p.2.value = p.1

instance (m : SquaresMap) : Decidable (keyedByValue m) := by
  unfold keyedByValue; infer_instance

theorem mapSet_fresh (m : SquaresMap) (k : Nat) (sq : Square)
    (h : ∀ p ∈ m, p.1 ≠ k) : mapSet m k sq = m ++ [(k, sq)] := by
  unfold mapSet
  rw [if_neg]
  simp only [List.any_eq_true, beq_iff_eq, not_exists, not_and]
  intro p hp
  exact h p hp

theorem mapSet_of_mem_keys (m : SquaresMap) (k : Nat) (sq : Square)
    (h : k ∈ mapKeys m) :
    mapSet m k sq = m.map (fun p => if p.1 == k then (k, sq) else p) := by
  unfold mapSet
  rw [if_pos]
  simp only [List.any_eq_true, beq_iff_eq]
  obtain ⟨p, hp, hk⟩ := List.mem_map.mp h
  exact ⟨p, hp, hk⟩

theorem mapKeys_mapSet_of_mem (m : SquaresMap) (k : Nat) (sq : Square)
    (h : k ∈ mapKeys m) : mapKeys (mapSet m k sq) = mapKeys m := by
  rw [mapSet_of_mem_keys m k sq h]
  unfold mapKeys
  rw [List.map_map]
  refine List.map_congr_left ?_
  intro p _
  by_cases hk : p.1 = k
  · simp [hk]
  · simp [hk]

theorem mem_mapSet (m : SquaresMap) (k : Nat) (sq : Square) :
    ∀ p ∈ mapSet m k sq, p ∈ m ∨ p = (k, sq) := by
  intro p hp
  unfold mapSet at hp
  by_cases h : m.any (fun p => p.1 == k)
  · rw [if_pos h] at hp
    obtain ⟨q, hq, hqe⟩ := List.mem_map.mp hp
    by_cases hk : q.1 = k
    · right; simp only [hk, beq_self_eq_true, if_true] at hqe; exact hqe.symm
    · left; simp only [beq_iff_eq, hk, if_false] at hqe; exact hqe ▸ hq
  · rw [if_neg h] at hp
    rcases List.mem_append.mp hp with h1 | h1
    · exact Or.inl h1
    · right; simpa using h1

theorem mapGet_eq_some_of_mem (m : SquaresMap) (k : Nat) (s : Square)
    (hnd : (mapKeys m).Nodup) (hm : (k, s) ∈ m) : mapGet m k = some s := by
  induction m with
  | nil => cases hm
  | cons p t ih =>
      unfold mapGet
      by_cases hk : p.1 = k
      · rw [List.find?_cons_of_pos _ (by simpa using hk)]
        rcases List.mem_cons.mp hm with h1 | h1
        · simp [← h1]
        · exfalso
          have hkt : k ∈ mapKeys t := List.mem_map.mpr ⟨(k, s), h1, rfl⟩
          exact (List.nodup_cons.mp hnd).1 (hk ▸ hkt : p.1 ∈ mapKeys t)
      · rw [List.find?_cons_of_neg _ (by simpa using hk)]
        rcases List.mem_cons.mp hm with h1 | h1
        · exact absurd (congrArg Prod.fst h1.symm) hk
        · exact ih (List.nodup_cons.mp hnd).2 h1

theorem mapGet_mem (m : SquaresMap) (k : Nat) (s : Square)
    (h : mapGet m k = some s) : (k, s) ∈ m := by
  unfold mapGet at h
  obtain ⟨p, hp, hps⟩ := Option.map_eq_some.mp h
  have h1 := List.find?_some hp
  have h2 := List.mem_of_find?_eq_some hp
  have : p.1 = k := by simpa using h1
  have : p = (k, s) := by
    cases p; simp_all
  exact this ▸ h2

theorem entry_unique (m : SquaresMap) (k : Nat) (s t : Square)
    (hnd : (mapKeys m).Nodup) (h1 : (k, s) ∈ m) (h2 : (k, t) ∈ m) : s = t := by
  have e1 := mapGet_eq_some_of_mem m k s hnd h1
  have e2 := mapGet_eq_some_of_mem m k t hnd h2
  rw [e1] at e2
  exact Option.some.inj e2

/-! ### Explicit form of the generated board -/

/-- The shuffled and truncated value list of column `c` of the generated board. -/
def columnTaken (dimension : Nat) (shuffle : Nat → List Nat → List Nat) (c : Nat) : List Nat :=
  (shuffle c ((List.range (dimension * 3)).map (fun j => c * dimension * 3 + 1 + j))).take dimension

/-- The entries column `c` contributes to the generated board. -/
def columnEntries (dimension : Nat) (shuffle : Nat → List Nat → List Nat) (c : Nat) :
    List (Nat × Square) :=
  (columnTaken dimension shuffle c).enum.map (fun p => (p.2, ⟨p.2, p.1, c, false, false⟩))

theorem mapKeys_columnEntries (d : Nat) (sh : Nat → List Nat → List Nat) (c : Nat) :
    mapKeys (columnEntries d sh c) = columnTaken d sh c := by
  unfold mapKeys columnEntries
  rw [List.map_map]
  exact List.enum_map_snd _

theorem columnTaken_nodup (d : Nat) (sh : Nat → List Nat → List Nat) (c : Nat)
    (hs : ∀ c l, (sh c l).Perm l) : (columnTaken d sh c).Nodup := by
  unfold columnTaken
  refine List.Nodup.sublist (List.take_sublist _ _) ?_
  refine ((hs c _).nodup_iff).mpr ?_
  exact (List.nodup_range _).map (fun a b h => Nat.add_left_cancel h)

theorem columnTaken_range (d : Nat) (sh : Nat → List Nat → List Nat) (c : Nat)
    (hs : ∀ c l, (sh c l).Perm l) :
    ∀ v ∈ columnTaken d sh c, c * d * 3 + 1 ≤ v ∧ v ≤ c * d * 3 + d * 3 := by
  intro v hv
  unfold columnTaken at hv
  have h1 := List.mem_of_mem_take hv
  have h2 := ((hs c _).mem_iff).mp h1
  obtain ⟨j, hj, rfl⟩ := List.mem_map.mp h2
  have hj' := List.mem_range.mp hj
  omega

theorem columnTaken_length (d : Nat) (sh : Nat → List Nat → List Nat) (c : Nat)
    (hs : ∀ c l, (sh c l).Perm l) : (columnTaken d sh c).length = d := by
  unfold columnTaken
  rw [List.length_take, (hs c _).length_eq, List.length_map, List.length_range]
  omega

theorem colRange_disjoint (d c c' v : Nat) (hlt : c < c')
    (h1 : v ≤ c * d * 3 + d * 3) (h2 : c' * d * 3 + 1 ≤ v) : False := by
  have h3 : (c + 1) * (d * 3) ≤ c' * (d * 3) :=
    Nat.mul_le_mul_right _ (Nat.succ_le_of_lt hlt)
  have e1 : (c + 1) * (d * 3) = c * d * 3 + d * 3 := by ring
  have e2 : c' * (d * 3) = c' * d * 3 := by ring
  omega

/-- Lemma restating `buildSquaresMap` with the per-column pool and slice named `columnTaken`. -/
theorem buildSquaresMap_unfold (d : Nat) (shuffle : Nat → List Nat → List Nat) :
    buildSquaresMap d shuffle = (List.range d).foldl (fun m c =>
      (columnTaken d shuffle c).enum.foldl
        (fun m p => mapSet m p.2 ⟨p.2, p.1, c, false, false⟩) m) [] := rfl

theorem insertAll_eq_append (c : Nat) (l : List Nat) :
    ∀ (n : Nat) (acc : SquaresMap), l.Nodup → (∀ v ∈ l, v ∉ mapKeys acc) →
      (List.enumFrom n l).foldl (fun m p => mapSet m p.2 ⟨p.2, p.1, c, false, false⟩) acc
        = acc ++ (List.enumFrom n l).map (fun p => (p.2, ⟨p.2, p.1, c, false, false⟩)) := by
  induction l with
  | nil => intro n acc _ _; simp
  | cons v t ih =>
      intro n acc hnd hf
      rw [List.enumFrom_cons]
      simp only [List.foldl_cons, List.map_cons]
      have hfresh : ∀ p ∈ acc, p.1 ≠ v := by
        intro p hp hk
        exact hf v (List.mem_cons_self v t) (hk ▸ List.mem_map.mpr ⟨p, hp, rfl⟩)
      rw [mapSet_fresh acc v _ hfresh]
      have hfr2 : ∀ w ∈ t, w ∉ mapKeys (acc ++ [(v, (⟨v, n, c, false, false⟩ : Square))]) := by
        intro w hw hmem
        unfold mapKeys at hmem
        rw [List.map_append] at hmem
        rcases List.mem_append.mp hmem with h1 | h1
        · exact hf w (List.mem_cons_of_mem v hw) h1
        · have hwv : w = v := by simpa using h1
          exact (List.nodup_cons.mp hnd).1 (hwv ▸ hw)
      rw [ih (n + 1) _ (List.nodup_cons.mp hnd).2 hfr2]
      rw [List.append_assoc]
      rfl

theorem buildFold_eq (d : Nat) (shuffle : Nat → List Nat → List Nat) (cs : List Nat) :
    ∀ acc : SquaresMap, cs.Nodup →
      (∀ c ∈ cs, (columnTaken d shuffle c).Nodup) →
      (∀ c ∈ cs, ∀ v ∈ columnTaken d shuffle c, c * d * 3 + 1 ≤ v ∧ v ≤ c * d * 3 + d * 3) →
      (∀ c ∈ cs, ∀ v ∈ columnTaken d shuffle c, v ∉ mapKeys acc) →
      cs.foldl (fun m c => (columnTaken d shuffle c).enum.foldl
          (fun m p => mapSet m p.2 ⟨p.2, p.1, c, false, false⟩) m) acc
        = acc ++ (cs.map (columnEntries d shuffle)).flatten := by
  induction cs with
  | nil => intro acc _ _ _ _; simp
  | cons c t ih =>
      intro acc hnd htk hrange hacc
      simp only [List.foldl_cons, List.map_cons, List.flatten_cons]
      have hstep : (columnTaken d shuffle c).enum.foldl
            (fun m p => mapSet m p.2 ⟨p.2, p.1, c, false, false⟩) acc
          = acc ++ (columnTaken d shuffle c).enum.map (fun p => (p.2, ⟨p.2, p.1, c, false, false⟩)) :=
        insertAll_eq_append c (columnTaken d shuffle c) 0 acc
          (htk c (List.mem_cons_self c t)) (hacc c (List.mem_cons_self c t))
      rw [hstep]
      have hfr : ∀ c' ∈ t, ∀ v ∈ columnTaken d shuffle c',
          v ∉ mapKeys (acc ++ (columnTaken d shuffle c).enum.map
            (fun p => (p.2, (⟨p.2, p.1, c, false, false⟩ : Square)))) := by
        intro c' hc' v hv hmem
        unfold mapKeys at hmem
        rw [List.map_append] at hmem
        rcases List.mem_append.mp hmem with h1 | h1
        · exact hacc c' (List.mem_cons_of_mem c hc') v hv h1
        · rw [List.map_map] at h1
          have h1' : v ∈ columnTaken d shuffle c := by
            simp only [List.mem_map] at h1
            obtain ⟨q, hq, hqe⟩ := h1
            have : q.2 ∈ columnTaken d shuffle c := List.snd_mem_of_mem_enum hq
            simpa [← hqe] using this
          have hvc := hrange c (List.mem_cons_self c t) v h1'
          have hvc' := hrange c' (List.mem_cons_of_mem c hc') v hv
          have hne : c ≠ c' := by
            intro he
            exact (List.nodup_cons.mp hnd).1 (he ▸ hc')
          rcases Nat.lt_or_ge c c' with hlt | hge
          · exact colRange_disjoint d c c' v hlt hvc.2 hvc'.1
          · have hlt' : c' < c := Nat.lt_of_le_of_ne hge (fun he => hne he.symm)
            exact colRange_disjoint d c' c v hlt' hvc'.2 hvc.1
      rw [ih _ (List.nodup_cons.mp hnd).2
        (fun c' hc' => htk c' (List.mem_cons_of_mem c hc'))
        (fun c' hc' => hrange c' (List.mem_cons_of_mem c hc')) hfr]
      rw [List.append_assoc]
      rfl

/-- The generated board, explicitly: the per-column entry blocks in order. -/
theorem buildSquaresMap_eq (d : Nat) (shuffle : Nat → List Nat → List Nat)
    (hs : ∀ c l, (shuffle c l).Perm l) :
    buildSquaresMap d shuffle = ((List.range d).map (columnEntries d shuffle)).flatten := by
  rw [buildSquaresMap_unfold d shuffle,
    buildFold_eq d shuffle (List.range d) [] (List.nodup_range d)
    (fun c _ => columnTaken_nodup d shuffle c hs)
    (fun c _ => columnTaken_range d shuffle c hs)
    (fun c _ v _ h => by simp [mapKeys] at h)]
  rfl

theorem columnEntries_length (d : Nat) (sh : Nat → List Nat → List Nat) (c : Nat)
    (hs : ∀ c l, (sh c l).Perm l) : (columnEntries d sh c).length = d := by
  unfold columnEntries
  rw [List.length_map, List.enum_length, columnTaken_length d sh c hs]

theorem flatten_map_eq_single {α : Type} (cs : List Nat) (g : Nat → List α) (c : Nat)
    (hmem : c ∈ cs) (hnd : cs.Nodup)
    (hnil : ∀ c' ∈ cs, c' ≠ c → g c' = []) : (cs.map g).flatten = g c := by
  induction cs with
  | nil => cases hmem
  | cons a t ih =>
      simp only [List.map_cons, List.flatten_cons]
      by_cases hac : a = c
      · subst hac
        have : (t.map g).flatten = [] := by
          refine List.flatten_eq_nil_iff.mpr ?_
          intro l hl
          obtain ⟨c', hc', rfl⟩ := List.mem_map.mp hl
          refine hnil c' (List.mem_cons_of_mem a hc') ?_
          intro he
          exact (List.nodup_cons.mp hnd).1 (he ▸ hc')
        rw [this, List.append_nil]
      · rw [hnil a (List.mem_cons_self a t) hac, List.nil_append]
        refine ih ?_ (List.nodup_cons.mp hnd).2 ?_
        · rcases List.mem_cons.mp hmem with h | h
          · exact absurd h.symm hac
          · exact h
        · exact fun c' hc' => hnil c' (List.mem_cons_of_mem a hc')

theorem mem_buildSquaresMap (d : Nat) (shuffle : Nat → List Nat → List Nat)
    (hs : ∀ c l, (shuffle c l).Perm l) (p : Nat × Square)
    (hp : p ∈ buildSquaresMap d shuffle) :
    p.2.value = p.1 ∧ p.2.col < d ∧ p.1 ∈ columnTaken d shuffle p.2.col := by
  rw [buildSquaresMap_eq d shuffle hs] at hp
  obtain ⟨L, hL, hpL⟩ := List.mem_flatten.mp hp
  obtain ⟨c, hc, rfl⟩ := List.mem_map.mp hL
  unfold columnEntries at hpL
  obtain ⟨q, hq, rfl⟩ := List.mem_map.mp hpL
  refine ⟨rfl, List.mem_range.mp hc, List.snd_mem_of_mem_enum hq⟩

/-- C1: the generated board has exactly `dimension²` squares, and for each
column `c < dimension` the row indices of the squares of column `c` are
exactly `{0, …, dimension-1}` with no repeats. -/
theorem generateBoard_count_and_rows (d : Nat) (shuffle : Nat → List Nat → List Nat)
    (hd : 0 < d) (hs : ∀ c l, (shuffle c l).Perm l) :
    (buildSquaresMap d shuffle).length = d * d ∧
    ∀ c < d, (((buildSquaresMap d shuffle).filter (fun p => p.2.col == c)).map
        (fun p => p.2.row)).Perm (List.range d) := by
  constructor
  · rw [buildSquaresMap_eq d shuffle hs, List.length_flatten, List.map_map]
    have : (List.range d).map (List.length ∘ columnEntries d shuffle)
        = (List.range d).map (fun _ => d) :=
      List.map_congr_left (fun c _ => columnEntries_length d shuffle c hs)
    rw [this, List.map_const', List.length_range]
    simp [List.sum_replicate, Nat.smul_one_eq_cast]
  · intro c hc
    rw [buildSquaresMap_eq d shuffle hs,
      List.filter_flatten, List.map_map]
    have hsingle : ((List.range d).map
          ((List.filter (fun p => p.2.col == c)) ∘ columnEntries d shuffle)).flatten
        = (columnEntries d shuffle c).filter (fun p => p.2.col == c) := by
      refine flatten_map_eq_single (List.range d)
        (fun c' => (columnEntries d shuffle c').filter (fun p => p.2.col == c)) c
        (List.mem_range.mpr hc) (List.nodup_range d) ?_
      intro c' _ hne
      refine List.filter_eq_nil_iff.mpr ?_
      intro p hp
      unfold columnEntries at hp
      obtain ⟨q, _, rfl⟩ := List.mem_map.mp hp
      simpa using hne
    rw [hsingle]
    have hself : (columnEntries d shuffle c).filter (fun p => p.2.col == c)
        = columnEntries d shuffle c := by
      refine List.filter_eq_self.mpr ?_
      intro p hp
      unfold columnEntries at hp
      obtain ⟨q, _, rfl⟩ := List.mem_map.mp hp
      simp
    rw [hself]
    unfold columnEntries
    rw [List.map_map]
    have : ((fun p => p.2.row) ∘ fun p : Nat × Nat => (p.2, (⟨p.2, p.1, c, false, false⟩ : Square)))
        = Prod.fst := rfl
    rw [this, List.enum_map_fst, columnTaken_length d shuffle c hs]

/-- C1 witness at `dimension = 2` with the identity shuffle. -/
theorem generateBoard_count_and_rows_witness :
    0 < 2 ∧ ((buildSquaresMap 2 (fun _ l => l)).length = 2 * 2 ∧
      ∀ c < 2, (((buildSquaresMap 2 (fun _ l => l)).filter (fun p => p.2.col == c)).map
          (fun p => p.2.row)).Perm (List.range 2)) :=
  ⟨by decide, generateBoard_count_and_rows 2 (fun _ l => l) (by decide)
    (fun _ l => List.Perm.refl l)⟩

/-- C2: every square of column `c` has its value in
`[c*dimension*3 + 1, c*dimension*3 + dimension*3]`, and squares in distinct
columns have distinct values. -/
theorem generateBoard_column_ranges (d : Nat) (shuffle : Nat → List Nat → List Nat)
    (hd : 0 < d) (hs : ∀ c l, (shuffle c l).Perm l) :
    (∀ p ∈ buildSquaresMap d shuffle,
      p.2.col * d * 3 + 1 ≤ p.2.value ∧ p.2.value ≤ p.2.col * d * 3 + d * 3) ∧
    (∀ p ∈ buildSquaresMap d shuffle, ∀ q ∈ buildSquaresMap d shuffle,
      p.2.col ≠ q.2.col → p.2.value ≠ q.2.value) := by
  constructor
  · intro p hp
    obtain ⟨hv, _, htk⟩ := mem_buildSquaresMap d shuffle hs p hp
    rw [hv]
    exact columnTaken_range d shuffle p.2.col hs p.1 htk
  · intro p hp q hq hne heq
    obtain ⟨hv1, _, htk1⟩ := mem_buildSquaresMap d shuffle hs p hp
    obtain ⟨hv2, _, htk2⟩ := mem_buildSquaresMap d shuffle hs q hq
    have hb1 := columnTaken_range d shuffle p.2.col hs p.1 htk1
    have hb2 := columnTaken_range d shuffle q.2.col hs q.1 htk2
    rw [hv1, hv2] at heq
    rw [← heq] at hb2
    rcases Nat.lt_or_ge p.2.col q.2.col with hlt | hge
    · exact colRange_disjoint d p.2.col q.2.col p.1 hlt hb1.2 hb2.1
    · have hlt' : q.2.col < p.2.col := Nat.lt_of_le_of_ne hge (fun he => hne he.symm)
      exact colRange_disjoint d q.2.col p.2.col p.1 hlt' hb2.2 hb1.1

/-! ### The draw engine -/

theorem mem_allNumbers (d v : Nat) : v ∈ allNumbers d ↔ 1 ≤ v ∧ v ≤ d * d * 3 := by
  unfold allNumbers
  simp only [List.mem_map, List.mem_range]
  constructor
  · rintro ⟨i, hi, rfl⟩; omega
  · intro h; exact ⟨v - 1, by omega, by omega⟩

theorem draw_snd (d : Nat) (squares : SquaresMap) (H : Finset Nat) (k : Nat)
    (hne : ((allNumbers d).filter (fun entry => !(decide (entry ∈ H)))).length ≠ 0) :
    (draw d squares H k).2 = insert
      (((allNumbers d).filter (fun entry => !(decide (entry ∈ H)))).getD
        (k % ((allNumbers d).filter (fun entry => !(decide (entry ∈ H)))).length) 0) H := by
  simp only [draw]
  rw [if_neg hne]
  cases mapGet squares (((allNumbers d).filter (fun entry => !(decide (entry ∈ H)))).getD
      (k % ((allNumbers d).filter (fun entry => !(decide (entry ∈ H)))).length) 0) <;> rfl

/-- C3: one `draw` on a history that is a proper subset of the universe adds
exactly one element, previously absent and inside `{1, …, dimension²·3}`; the
new history contains the old one. -/
theorem draw_grows_history_by_one (d : Nat) (squares : SquaresMap) (H : Finset Nat) (k : Nat)
    (hss : H ⊂ Finset.Icc 1 (d * d * 3)) :
    ∃ v, v ∉ H ∧ 1 ≤ v ∧ v ≤ d * d * 3 ∧
      (draw d squares H k).2 = insert v H ∧
      H ⊆ (draw d squares H k).2 ∧ (draw d squares H k).2.card = H.card + 1 := by
  obtain ⟨v₀, hv₀I, hv₀H⟩ := Finset.exists_of_ssubset hss
  have hmem₀ : v₀ ∈ (allNumbers d).filter (fun entry => !(decide (entry ∈ H))) := by
    rw [List.mem_filter]
    refine ⟨(mem_allNumbers d v₀).mpr ?_, by simpa using hv₀H⟩
    exact Finset.mem_Icc.mp hv₀I
  have hlen : ((allNumbers d).filter (fun entry => !(decide (entry ∈ H)))).length ≠ 0 := by
    intro h
    rw [List.length_eq_zero] at h
    rw [h] at hmem₀
    cases hmem₀
  have hidx : k % ((allNumbers d).filter (fun entry => !(decide (entry ∈ H)))).length
      < ((allNumbers d).filter (fun entry => !(decide (entry ∈ H)))).length :=
    Nat.mod_lt _ (Nat.pos_of_ne_zero hlen)
  have hvmem : ((allNumbers d).filter (fun entry => !(decide (entry ∈ H)))).getD
      (k % ((allNumbers d).filter (fun entry => !(decide (entry ∈ H)))).length) 0
      ∈ (allNumbers d).filter (fun entry => !(decide (entry ∈ H))) := by
    rw [List.getD_eq_getElem?_getD, List.getElem?_eq_getElem hidx]
    exact List.getElem_mem _
  refine ⟨_, ?_, ?_, ?_, draw_snd d squares H k hlen, ?_, ?_⟩
  · have := (List.mem_filter.mp hvmem).2
    simpa using this
  · exact ((mem_allNumbers d _).mp (List.mem_of_mem_filter hvmem)).1
  · exact ((mem_allNumbers d _).mp (List.mem_of_mem_filter hvmem)).2
  · rw [draw_snd d squares H k hlen]
    exact Finset.subset_insert _ H
  · rw [draw_snd d squares H k hlen]
    refine Finset.card_insert_of_not_mem ?_
    have := (List.mem_filter.mp hvmem).2
    simpa using this

/-- C3 witness: `dimension = 1`, empty history. -/
theorem draw_grows_history_by_one_witness :
    (∅ : Finset Nat) ⊂ Finset.Icc 1 (1 * 1 * 3) ∧
    (∃ v, v ∉ (∅ : Finset Nat) ∧ 1 ≤ v ∧ v ≤ 1 * 1 * 3 ∧
      (draw 1 [] ∅ 0).2 = insert v ∅ ∧
      (∅ : Finset Nat) ⊆ (draw 1 [] ∅ 0).2 ∧
      (draw 1 [] ∅ 0).2.card = Finset.card (∅ : Finset Nat) + 1) :=
  ⟨by decide, draw_grows_history_by_one 1 [] ∅ 0 (by decide)⟩

/-- C4: when the history already holds the whole universe, `draw` is a no-op
on both the board and the history. -/
theorem draw_exhausted_noop (d : Nat) (squares : SquaresMap) (H : Finset Nat) (k : Nat)
    (hfull : ∀ v ∈ Finset.Icc 1 (d * d * 3), v ∈ H) :
    draw d squares H k = (squares, H) := by
  have hnil : (allNumbers d).filter (fun entry => !(decide (entry ∈ H))) = [] := by
    refine List.filter_eq_nil_iff.mpr ?_
    intro a ha
    have hb := (mem_allNumbers d a).mp ha
    have haH : a ∈ H := hfull a (Finset.mem_Icc.mpr hb)
    simp [haH]
  simp only [draw]
  rw [hnil]
  rfl

/-- C4 witness: `dimension = 1`, history `{1, 2, 3}`. -/
theorem draw_exhausted_noop_witness :
    (∀ v ∈ Finset.Icc 1 (1 * 1 * 3), v ∈ Finset.Icc 1 3) ∧
    draw 1 [] (Finset.Icc 1 3) 5 = ([], Finset.Icc 1 3) :=
  ⟨by decide, draw_exhausted_noop 1 [] (Finset.Icc 1 3) 5 (by decide)⟩

/-- C2 witness at `dimension = 2` with the identity shuffle. -/
theorem generateBoard_column_ranges_witness :
    0 < 2 ∧ ((∀ p ∈ buildSquaresMap 2 (fun _ l => l),
        p.2.col * 2 * 3 + 1 ≤ p.2.value ∧ p.2.value ≤ p.2.col * 2 * 3 + 2 * 3) ∧
      (∀ p ∈ buildSquaresMap 2 (fun _ l => l), ∀ q ∈ buildSquaresMap 2 (fun _ l => l),
        p.2.col ≠ q.2.col → p.2.value ≠ q.2.value)) :=
  ⟨by decide, generateBoard_column_ranges 2 (fun _ l => l) (by decide)
    (fun _ l => List.Perm.refl l)⟩

/-! ### Fold preservation, reset, and the keyed-by-value invariant -/

theorem foldl_preserve {β : Type} (P : Nat × Square → Prop) (f : SquaresMap → β → SquaresMap)
    (hf : ∀ m b, (∀ p ∈ m, P p) → ∀ p ∈ f m b, P p) :
    ∀ (l : List β) (acc : SquaresMap), (∀ p ∈ acc, P p) → ∀ p ∈ l.foldl f acc, P p := by
  intro l
  induction l with
  | nil => intro acc h; simpa using h
  | cons b t ih => intro acc h; exact ih _ (hf acc b h)

theorem buildSquaresMap_fields_false (d : Nat) (sh : Nat → List Nat → List Nat) :
    ∀ p ∈ buildSquaresMap d sh, p.2.drawn = false ∧ p.2.inBingo = false := by
  rw [buildSquaresMap_unfold d sh]
  refine foldl_preserve (fun p => p.2.drawn = false ∧ p.2.inBingo = false) _
    ?_ (List.range d) [] (by simp)
  intro m c hm
  refine foldl_preserve (fun p => p.2.drawn = false ∧ p.2.inBingo = false) _
    ?_ (columnTaken d sh c).enum m hm
  intro m' q hm' p hp
  rcases mem_mapSet m' q.2 _ p hp with h1 | h1
  · exact hm' p h1
  · rw [h1]; exact ⟨rfl, rfl⟩

/-- C8: the function `resetGame` yields a board with no `drawn` and no `inBingo` squares
and an empty draw history, whatever the prior game state was. -/
theorem resetGame_clears (d : Nat) (sh : Nat → List Nat → List Nat) :
    (∀ p ∈ (resetGame d sh).1, p.2.drawn = false ∧ p.2.inBingo = false) ∧
    (resetGame d sh).2 = ∅ :=
  ⟨buildSquaresMap_fields_false d sh, rfl⟩

theorem keyedByValue_mapSet (m : SquaresMap) (k : Nat) (sq : Square)
    (h : keyedByValue m) (hsq : sq.value = k) : keyedByValue (mapSet m k sq) := by
  intro p hp
  rcases mem_mapSet m k sq p hp with h1 | h1
  · exact h p h1
  · rw [h1]; exact hsq

theorem keyedByValue_buildSquaresMap (d : Nat) (sh : Nat → List Nat → List Nat) :
    keyedByValue (buildSquaresMap d sh) := by
  rw [buildSquaresMap_unfold d sh]
  refine foldl_preserve (fun p => p.2.value = p.1) _ ?_ (List.range d) [] (by simp)
  intro m c hm
  refine foldl_preserve (fun p => p.2.value = p.1) _ ?_ (columnTaken d sh c).enum m hm
  intro m' q hm' p hp
  exact keyedByValue_mapSet m' q.2 ⟨q.2, q.1, c, false, false⟩ hm' rfl p hp

theorem keyedByValue_checkAndFlagBingo (d : Nat) (m : SquaresMap) (l : List Square)
    (h : keyedByValue m) : keyedByValue (checkAndFlagBingo d m l) := by
  unfold checkAndFlagBingo
  split
  · refine foldl_preserve (fun p => p.2.value = p.1) _ ?_ l m h
    intro m' s hm' p hp
    exact keyedByValue_mapSet m' s.value { s with inBingo := true } hm' rfl p hp
  · exact h

theorem keyedByValue_checkForBingo (d : Nat) (m : SquaresMap)
    (h : keyedByValue m) : keyedByValue (checkForBingo d m) := by
  simp only [checkForBingo]
  refine keyedByValue_checkAndFlagBingo d _ _ (keyedByValue_checkAndFlagBingo d _ _ ?_)
  refine foldl_preserve (fun p => p.2.value = p.1) _ ?_ (List.range d) m h
  intro m' i hm'
  exact keyedByValue_checkAndFlagBingo d _ _ (keyedByValue_checkAndFlagBingo d _ _ hm')

theorem keyedByValue_draw (d : Nat) (m : SquaresMap) (H : Finset Nat) (k : Nat)
    (h : keyedByValue m) : keyedByValue (draw d m H k).1 := by
  simp only [draw]
  by_cases hc : ((allNumbers d).filter (fun entry => !(decide (entry ∈ H)))).length = 0
  · rw [if_pos hc]; exact h
  · rw [if_neg hc]
    cases hg : mapGet m (((allNumbers d).filter (fun entry => !(decide (entry ∈ H)))).getD
        (k % ((allNumbers d).filter (fun entry => !(decide (entry ∈ H)))).length) 0) with
    | none => exact h
    | some rs =>
        refine keyedByValue_checkForBingo d _ ?_
        exact keyedByValue_mapSet m rs.value _ h rfl

/-- C10: every operation preserves the invariant that the board is keyed by
square value (`replace` taking a keyed-by-value payload). -/
theorem operations_preserve_keyedByValue (d : Nat) (sh : Nat → List Nat → List Nat)
    (m nm : SquaresMap) (H : Finset Nat) (k s : Nat) (l : List Square)
    (hm : keyedByValue m) (hnm : keyedByValue nm) :
    keyedByValue (buildSquaresMap d sh) ∧
    keyedByValue (squaresReducer sh m (ActionType.flagDrawn s)) ∧
    keyedByValue (squaresReducer sh m (ActionType.flagInBingo s)) ∧
    keyedByValue (squaresReducer sh m (ActionType.replace nm)) ∧
    keyedByValue (squaresReducer sh m (ActionType.reset d)) ∧
    keyedByValue (draw d m H k).1 ∧
    keyedByValue (checkAndFlagBingo d m l) ∧
    keyedByValue (checkForBingo d m) := by
  refine ⟨keyedByValue_buildSquaresMap d sh, ?_, ?_, hnm, keyedByValue_buildSquaresMap d sh,
    keyedByValue_draw d m H k hm, keyedByValue_checkAndFlagBingo d m l hm,
    keyedByValue_checkForBingo d m hm⟩
  · simp only [squaresReducer]
    cases hg : mapGet m s with
    | none => exact hm
    | some cs =>
        have hcs : cs.value = s := hm (s, cs) (mapGet_mem m s cs hg)
        exact keyedByValue_mapSet m s _ hm hcs
  · simp only [squaresReducer]
    cases hg : mapGet m s with
    | none => exact hm
    | some cs =>
        have hcs : cs.value = s := hm (s, cs) (mapGet_mem m s cs hg)
        exact keyedByValue_mapSet m s _ hm hcs

/-- C10 witness at a small concrete state. -/
theorem operations_preserve_keyedByValue_witness :
    keyedByValue [(1, (⟨1, 0, 0, false, false⟩ : Square))] ∧ keyedByValue [] ∧
    (keyedByValue (buildSquaresMap 1 (fun _ l => l)) ∧
     keyedByValue (squaresReducer (fun _ l => l)
        [(1, (⟨1, 0, 0, false, false⟩ : Square))] (ActionType.flagDrawn 1)) ∧
     keyedByValue (squaresReducer (fun _ l => l)
        [(1, (⟨1, 0, 0, false, false⟩ : Square))] (ActionType.flagInBingo 1)) ∧
     keyedByValue (squaresReducer (fun _ l => l)
        [(1, (⟨1, 0, 0, false, false⟩ : Square))] (ActionType.replace [])) ∧
     keyedByValue (squaresReducer (fun _ l => l)
        [(1, (⟨1, 0, 0, false, false⟩ : Square))] (ActionType.reset 1)) ∧
     keyedByValue (draw 1 [(1, (⟨1, 0, 0, false, false⟩ : Square))] ∅ 0).1 ∧
     keyedByValue (checkAndFlagBingo 1 [(1, (⟨1, 0, 0, false, false⟩ : Square))] []) ∧
     keyedByValue (checkForBingo 1 [(1, (⟨1, 0, 0, false, false⟩ : Square))])) :=
  ⟨by decide, by decide,
    operations_preserve_keyedByValue 1 (fun _ l => l)
      [(1, (⟨1, 0, 0, false, false⟩ : Square))] [] ∅ 0 1 [] (by decide) (by decide)⟩

/-! ### Characterizing the win detector -/

/-- Flag `inBingo` on every entry whose key satisfies `F`. -/
def applyFlags (F : Nat → Bool) (m : SquaresMap) : SquaresMap :=
  m.map (fun p => if F p.1 then (p.1, { p.2 with inBingo := true }) else p)

theorem applyFlags_false (m : SquaresMap) : applyFlags (fun _ => false) m = m := by
  simp [applyFlags]

theorem applyFlags_congr (F G : Nat → Bool) (m : SquaresMap)
    (h : ∀ p ∈ m, F p.1 = G p.1) : applyFlags F m = applyFlags G m := by
  unfold applyFlags
  refine List.map_congr_left ?_
  intro p hp
  rw [h p hp]

theorem mapKeys_applyFlags (F : Nat → Bool) (m : SquaresMap) :
    mapKeys (applyFlags F m) = mapKeys m := by
  unfold mapKeys applyFlags
  rw [List.map_map]
  refine List.map_congr_left ?_
  intro p _
  by_cases h : F p.1 <;> simp [h]

/-- A pending snapshot of every square of `m`, by value. -/
theorem snapshot_entry (m : SquaresMap) (hkv : keyedByValue m) :
    ∀ s ∈ m.map Prod.snd, (s.value, s) ∈ m := by
  intro s hs
  obtain ⟨p, hp, rfl⟩ := List.mem_map.mp hs
  rw [hkv p hp]
  simpa using hp

theorem applyFlags_mapSet (m : SquaresMap) (F : Nat → Bool) (k₀ : Nat) (s₀ : Square)
    (hnd : (mapKeys m).Nodup) (hm : (k₀, s₀) ∈ m) :
    mapSet (applyFlags F m) k₀ { s₀ with inBingo := true }
      = applyFlags (fun k => k₀ == k || F k) m := by
  have hk₀ : k₀ ∈ mapKeys (applyFlags F m) := by
    rw [mapKeys_applyFlags]
    exact List.mem_map.mpr ⟨(k₀, s₀), hm, rfl⟩
  rw [mapSet_of_mem_keys _ k₀ _ hk₀]
  unfold applyFlags
  rw [List.map_map]
  refine List.map_congr_left ?_
  rintro ⟨pk, ps⟩ hp
  simp only [Function.comp_apply]
  by_cases hk : pk = k₀
  · subst hk
    have hps : ps = s₀ := entry_unique m pk ps s₀ hnd hp hm
    subst hps
    by_cases hF : F pk = true <;> simp [hF]
  · have hk2 : ¬(k₀ = pk) := fun he => hk he.symm
    by_cases hF : F pk = true <;> simp [hF, hk, hk2]

theorem flagAll_applyFlags (m : SquaresMap) (hnd : (mapKeys m).Nodup) (l : List Square)
    (hl : ∀ s ∈ l, (s.value, s) ∈ m) (F : Nat → Bool) :
    l.foldl (fun acc squareData =>
        mapSet acc squareData.value { squareData with inBingo := true }) (applyFlags F m)
      = applyFlags (fun k => l.any (fun s => s.value == k) || F k) m := by
  induction l generalizing F with
  | nil =>
      simp only [List.foldl_nil, List.any_nil]
      exact applyFlags_congr _ _ m (fun p _ => by simp)
  | cons s t ih =>
      simp only [List.foldl_cons]
      rw [applyFlags_mapSet m F s.value s hnd (hl s (List.mem_cons_self s t))]
      rw [ih (fun s' hs' => hl s' (List.mem_cons_of_mem s hs')) (fun k => s.value == k || F k)]
      refine applyFlags_congr _ _ m ?_
      intro p _
      simp only [List.any_cons]
      cases h1 : (s.value == p.1) <;> cases h2 : t.any (fun s' => s'.value == p.1) <;>
        cases h3 : F p.1 <;> rfl

/-- Whether the checked line `l` is complete and holds the key `k`. -/
def lineFlag (d : Nat) (l : List Square) (k : Nat) : Bool :=
  decide (d ≤ l.length) && l.any (fun s => s.value == k)

theorem checkAndFlagBingo_applyFlags (d : Nat) (m : SquaresMap)
    (hnd : (mapKeys m).Nodup) (l : List Square)
    (hl : ∀ s ∈ l, (s.value, s) ∈ m) (F : Nat → Bool) :
    checkAndFlagBingo d (applyFlags F m) l
      = applyFlags (fun k => lineFlag d l k || F k) m := by
  unfold checkAndFlagBingo
  by_cases hc : d ≤ l.length
  · rw [if_pos hc, flagAll_applyFlags m hnd l hl F]
    refine applyFlags_congr _ _ m ?_
    intro p _
    simp [lineFlag, hc]
  · rw [if_neg hc]
    refine (applyFlags_congr _ _ m ?_).symm
    intro p _
    simp [lineFlag, hc]

theorem rowColLoop_applyFlags (d : Nat) (m : SquaresMap) (hnd : (mapKeys m).Nodup)
    (vals : List Square) (hvals : ∀ s ∈ vals, (s.value, s) ∈ m) (cs : List Nat) :
    ∀ F : Nat → Bool,
      cs.foldl (fun acc i =>
          checkAndFlagBingo d (checkAndFlagBingo d acc
              (vals.filter (fun s => s.drawn && s.row == i)))
            (vals.filter (fun s => s.drawn && s.col == i))) (applyFlags F m)
        = applyFlags (fun k => cs.any (fun i =>
            lineFlag d (vals.filter (fun s => s.drawn && s.row == i)) k
              || lineFlag d (vals.filter (fun s => s.drawn && s.col == i)) k) || F k) m := by
  induction cs with
  | nil =>
      intro F
      simp only [List.foldl_nil, List.any_nil]
      exact applyFlags_congr _ _ m (fun p _ => by simp)
  | cons i t ih =>
      intro F
      simp only [List.foldl_cons]
      rw [checkAndFlagBingo_applyFlags d m hnd _
        (fun s hs => hvals s (List.mem_of_mem_filter hs)) F]
      rw [checkAndFlagBingo_applyFlags d m hnd _
        (fun s hs => hvals s (List.mem_of_mem_filter hs)) _]
      rw [ih _]
      refine applyFlags_congr _ _ m ?_
      intro p _
      simp only [List.any_cons]
      cases h1 : lineFlag d (vals.filter (fun s => s.drawn && s.row == i)) p.1 <;>
        cases h2 : lineFlag d (vals.filter (fun s => s.drawn && s.col == i)) p.1 <;>
        cases h3 : t.any (fun j =>
            lineFlag d (vals.filter (fun s => s.drawn && s.row == j)) p.1
              || lineFlag d (vals.filter (fun s => s.drawn && s.col == j)) p.1) <;>
        cases h4 : F p.1 <;> rfl

/-- The complete flag condition `checkForBingo` applies, as a function of the
key, over the snapshot `vals`. -/
def bigFlag (d : Nat) (vals : List Square) (k : Nat) : Bool :=
  lineFlag d (vals.filter (fun s => s.drawn && s.row + s.col == d - 1)) k
    || (lineFlag d (vals.filter (fun s => s.drawn && s.row == s.col)) k
    || ((List.range d).any (fun i =>
          lineFlag d (vals.filter (fun s => s.drawn && s.row == i)) k
            || lineFlag d (vals.filter (fun s => s.drawn && s.col == i)) k) || false))

theorem checkForBingo_applyFlags (d : Nat) (m : SquaresMap)
    (hnd : (mapKeys m).Nodup) (hkv : keyedByValue m) :
    checkForBingo d m = applyFlags (bigFlag d (m.map Prod.snd)) m := by
  have hvals := snapshot_entry m hkv
  have hloop := rowColLoop_applyFlags d m hnd (m.map Prod.snd) hvals
    (List.range d) (fun _ => false)
  rw [applyFlags_false] at hloop
  simp only [checkForBingo]
  rw [hloop]
  rw [checkAndFlagBingo_applyFlags d m hnd _
    (fun s hs => hvals s (List.mem_of_mem_filter hs)) _]
  rw [checkAndFlagBingo_applyFlags d m hnd _
    (fun s hs => hvals s (List.mem_of_mem_filter hs)) _]
  rfl

/-- Whether `checkForBingo` flags the snapshot square `a`: it is drawn and
lies on a row, column or diagonal whose drawn-square count reaches
`dimension`. -/
def shouldFlag (d : Nat) (vals : List Square) (a : Square) : Bool :=
  a.drawn &&
    ((decide (a.row < d) &&
        decide (d ≤ (vals.filter (fun s => s.drawn && s.row == a.row)).length))
      || (decide (a.col < d) &&
          decide (d ≤ (vals.filter (fun s => s.drawn && s.col == a.col)).length))
      || ((a.row == a.col) &&
          decide (d ≤ (vals.filter (fun s => s.drawn && s.row == s.col)).length))
      || ((a.row + a.col == d - 1) &&
          decide (d ≤ (vals.filter (fun s => s.drawn && s.row + s.col == d - 1)).length)))

theorem filter_any_value (m : SquaresMap) (hnd : (mapKeys m).Nodup)
    (hkv : keyedByValue m) (Q : Square → Bool) (p : Nat × Square) (hp : p ∈ m) :
    ((m.map Prod.snd).filter (fun s => s.drawn && Q s)).any (fun s => s.value == p.1)
      = (p.2.drawn && Q p.2) := by
  rw [Bool.eq_iff_iff]
  simp only [List.any_eq_true, List.mem_filter, List.mem_map, Bool.and_eq_true, beq_iff_eq]
  constructor
  · rintro ⟨s, ⟨⟨q, hq, rfl⟩, hdq⟩, hval⟩
    have hq1 : q.1 = p.1 := by rw [← hkv q hq, hval]
    have hq2 : q.2 = p.2 := by
      refine entry_unique m p.1 q.2 p.2 hnd ?_ ?_
      · rw [← hq1]; exact hq
      · exact hp
    rw [← hq2]; exact hdq
  · rintro ⟨hd', hQ⟩
    exact ⟨p.2, ⟨⟨p, hp, rfl⟩, hd', hQ⟩, hkv p hp⟩

theorem bigFlag_eq_shouldFlag (d : Nat) (m : SquaresMap) (hnd : (mapKeys m).Nodup)
    (hkv : keyedByValue m) (p : Nat × Square) (hp : p ∈ m) :
    bigFlag d (m.map Prod.snd) p.1 = shouldFlag d (m.map Prod.snd) p.2 := by
  have hrow : ∀ i : Nat,
      ((m.map Prod.snd).filter (fun s => s.drawn && s.row == i)).any
        (fun s => s.value == p.1) = (p.2.drawn && (p.2.row == i)) :=
    fun i => filter_any_value m hnd hkv (fun s => s.row == i) p hp
  have hcol : ∀ i : Nat,
      ((m.map Prod.snd).filter (fun s => s.drawn && s.col == i)).any
        (fun s => s.value == p.1) = (p.2.drawn && (p.2.col == i)) :=
    fun i => filter_any_value m hnd hkv (fun s => s.col == i) p hp
  have hdiag := filter_any_value m hnd hkv (fun s => s.row == s.col) p hp
  have hanti := filter_any_value m hnd hkv (fun s => s.row + s.col == d - 1) p hp
  unfold bigFlag shouldFlag lineFlag
  rw [hdiag, hanti]
  simp only [hrow, hcol]
  rw [Bool.eq_iff_iff]
  simp only [Bool.or_eq_true, Bool.and_eq_true, List.any_eq_true, List.mem_range,
    decide_eq_true_eq, beq_iff_eq, Bool.or_false]
  constructor
  · rintro (⟨hlen, hdrawn, hsum⟩ | ⟨hlen, hdrawn, heq⟩ |
      ⟨i, hi, (⟨hlen, hdrawn, hri⟩ | ⟨hlen, hdrawn, hci⟩)⟩)
    · exact ⟨hdrawn, Or.inr ⟨hsum, hlen⟩⟩
    · exact ⟨hdrawn, Or.inl (Or.inr ⟨heq, hlen⟩)⟩
    · subst hri; exact ⟨hdrawn, Or.inl (Or.inl (Or.inl ⟨hi, hlen⟩))⟩
    · subst hci; exact ⟨hdrawn, Or.inl (Or.inl (Or.inr ⟨hi, hlen⟩))⟩
  · rintro ⟨hdrawn, (((⟨hrd, hlen⟩ | ⟨hcd, hlen⟩) | ⟨heq, hlen⟩) | ⟨hsum, hlen⟩)⟩
    · exact Or.inr (Or.inr ⟨p.2.row, hrd, Or.inl ⟨hlen, hdrawn, rfl⟩⟩)
    · exact Or.inr (Or.inr ⟨p.2.col, hcd, Or.inr ⟨hlen, hdrawn, rfl⟩⟩)
    · exact Or.inr (Or.inl ⟨hlen, hdrawn, heq⟩)
    · exact Or.inl ⟨hlen, hdrawn, hsum⟩

/-- Function `checkForBingo`, entrywise: each entry is flagged `inBingo` exactly when
`shouldFlag` holds of its square; nothing else changes. -/
theorem checkForBingo_spec (d : Nat) (m : SquaresMap) (hnd : (mapKeys m).Nodup)
    (hkv : keyedByValue m) :
    checkForBingo d m = m.map (fun p =>
      if shouldFlag d (m.map Prod.snd) p.2 then (p.1, { p.2 with inBingo := true }) else p) := by
  rw [checkForBingo_applyFlags d m hnd hkv]
  unfold applyFlags
  refine List.map_congr_left ?_
  intro p hp
  rw [bigFlag_eq_shouldFlag d m hnd hkv p hp]

/-! ### Boards satisfying the data-model invariants of the spec -/

/-- The board invariants: unique keys, keyed by value, `dimension²` entries,
each column's row indices exactly `{0, …, dimension-1}`, and per-column
value ranges. -/
def boardInvariant (d : Nat) (m : SquaresMap) : Prop :=
  (mapKeys m).Nodup ∧ keyedByValue m ∧ m.length = d * d ∧
  (∀ c < d, (((m.map Prod.snd).filter (fun s => s.col == c)).map Square.row).Perm
      (List.range d)) ∧
  (∀ p ∈ m, p.2.col * d * 3 + 1 ≤ p.2.value ∧ p.2.value ≤ p.2.col * d * 3 + d * 3)

instance (d : Nat) (m : SquaresMap) : Decidable (boardInvariant d m) := by
  unfold boardInvariant
  infer_instance

theorem sum_filter_col (d : Nat) (vals : List Square) :
    (∑ c ∈ Finset.range d, (vals.filter (fun s => s.col == c)).length)
      = (vals.filter (fun s => decide (s.col < d))).length := by
  induction vals with
  | nil => simp
  | cons s t ih =>
      have hcons : ∀ c : Nat, (List.filter (fun s => s.col == c) (s :: t)).length
          = (if s.col = c then 1 else 0) + (t.filter (fun s => s.col == c)).length := by
        intro c
        by_cases hc : s.col = c <;> simp [List.filter_cons, hc] <;> omega
      rw [Finset.sum_congr rfl (fun c _ => hcons c), Finset.sum_add_distrib, ih,
        Finset.sum_ite_eq (Finset.range d) s.col (fun _ => 1)]
      by_cases hcd : s.col < d
      · rw [if_pos (Finset.mem_range.mpr hcd)]
        simp only [List.filter_cons]
        rw [if_pos (by simpa using hcd)]
        simp only [List.length_cons]
        omega
      · rw [if_neg (fun h => hcd (Finset.mem_range.mp h))]
        simp only [List.filter_cons]
        rw [if_neg (by simpa using hcd)]
        omega

theorem boardInv_col_count (d : Nat) (m : SquaresMap) (hbi : boardInvariant d m) :
    ∀ c < d, ((m.map Prod.snd).filter (fun s => s.col == c)).length = d := by
  intro c hc
  have h := (hbi.2.2.2.1 c hc).length_eq
  simpa using h

theorem boardInv_cols_lt (d : Nat) (m : SquaresMap) (hbi : boardInvariant d m) :
    ∀ s ∈ m.map Prod.snd, s.col < d := by
  have hlen : (m.map Prod.snd).length = d * d := by
    rw [List.length_map]; exact hbi.2.2.1
  have hsum : (∑ c ∈ Finset.range d,
      ((m.map Prod.snd).filter (fun s => s.col == c)).length) = d * d := by
    rw [Finset.sum_congr rfl
      (fun c hc => boardInv_col_count d m hbi c (Finset.mem_range.mp hc))]
    rw [Finset.sum_const, Finset.card_range, smul_eq_mul]
  have hfl : ((m.map Prod.snd).filter (fun s => decide (s.col < d))).length
      = (m.map Prod.snd).length := by
    rw [← sum_filter_col d (m.map Prod.snd), hsum, hlen]
  have heq := (List.filter_sublist (m.map Prod.snd)).eq_of_length hfl
  intro s hs
  have hsd := List.filter_eq_self.mp heq s hs
  simpa using hsd

theorem count_row_in_col (d : Nat) (m : SquaresMap) (hbi : boardInvariant d m) :
    ∀ c < d, ∀ r < d,
      (((m.map Prod.snd).filter (fun s => s.col == c)).filter
        (fun s => s.row == r)).length = 1 := by
  intro c hc r hr
  have hperm := hbi.2.2.2.1 c hc
  have h1 : (((m.map Prod.snd).filter (fun s => s.col == c)).filter
        (fun s => s.row == r)).length
      = ((m.map Prod.snd).filter (fun s => s.col == c)).countP (fun s => s.row == r) :=
    (List.countP_eq_length_filter _ _).symm
  have h2 : (((m.map Prod.snd).filter (fun s => s.col == c)).map Square.row).countP
        (fun x => x == r)
      = ((m.map Prod.snd).filter (fun s => s.col == c)).countP (fun s => s.row == r) :=
    List.countP_map (fun x => x == r) Square.row _
  have h3 : (((m.map Prod.snd).filter (fun s => s.col == c)).map Square.row).countP
      (fun x => x == r) = 1 := by
    have hcount : (((m.map Prod.snd).filter (fun s => s.col == c)).map Square.row).count r
        = 1 := by
      rw [hperm.count_eq r]
      exact List.count_eq_one_of_mem (List.nodup_range d) (List.mem_range.mpr hr)
    exact hcount
  rw [h1, ← h2]
  exact h3

theorem row_count_aux (d : Nat) (m : SquaresMap) (hbi : boardInvariant d m)
    (Q : Square → Bool)
    (hone : ∀ c < d,
      (((m.map Prod.snd).filter (fun s => s.col == c)).filter Q).length = 1) :
    ((m.map Prod.snd).filter Q).length = d := by
  have h1 : (∑ c ∈ Finset.range d,
      (((m.map Prod.snd).filter Q).filter (fun s => s.col == c)).length)
        = ((m.map Prod.snd).filter Q).length := by
    rw [sum_filter_col d ((m.map Prod.snd).filter Q)]
    have hall : ∀ s ∈ (m.map Prod.snd).filter Q, decide (s.col < d) = true := by
      intro s hs
      simpa using boardInv_cols_lt d m hbi s (List.mem_of_mem_filter hs)
    rw [List.filter_eq_self.mpr hall]
  have h2 : ∀ c : Nat, ((m.map Prod.snd).filter Q).filter (fun s => s.col == c)
      = ((m.map Prod.snd).filter (fun s => s.col == c)).filter Q := by
    intro c
    rw [List.filter_filter, List.filter_filter]
    exact List.filter_congr (fun s _ => by
      cases hq : Q s <;> cases hcc : (s.col == c) <;> rfl)
  rw [← h1, Finset.sum_congr rfl
    (fun c hc => by rw [h2 c, hone c (Finset.mem_range.mp hc)])]
  rw [Finset.sum_const, Finset.card_range, smul_eq_mul, Nat.mul_one]

theorem boardInv_row_count (d : Nat) (m : SquaresMap) (hbi : boardInvariant d m) :
    ∀ r < d, ((m.map Prod.snd).filter (fun s => s.row == r)).length = d := by
  intro r hr
  exact row_count_aux d m hbi (fun s => s.row == r)
    (fun c hc => count_row_in_col d m hbi c hc r hr)

theorem boardInv_diag_count (d : Nat) (m : SquaresMap) (hbi : boardInvariant d m) :
    ((m.map Prod.snd).filter (fun s => s.row == s.col)).length = d := by
  refine row_count_aux d m hbi (fun s => s.row == s.col) ?_
  intro c hc
  have he : ((m.map Prod.snd).filter (fun s => s.col == c)).filter (fun s => s.row == s.col)
      = ((m.map Prod.snd).filter (fun s => s.col == c)).filter (fun s => s.row == c) := by
    refine List.filter_congr ?_
    intro s hs
    have hsc : s.col = c := by simpa using (List.mem_filter.mp hs).2
    rw [hsc]
  rw [he]
  exact count_row_in_col d m hbi c hc c hc

theorem boardInv_anti_count (d : Nat) (m : SquaresMap) (hbi : boardInvariant d m) :
    ((m.map Prod.snd).filter (fun s => s.row + s.col == d - 1)).length = d := by
  refine row_count_aux d m hbi (fun s => s.row + s.col == d - 1) ?_
  intro c hc
  have he : ((m.map Prod.snd).filter (fun s => s.col == c)).filter
        (fun s => s.row + s.col == d - 1)
      = ((m.map Prod.snd).filter (fun s => s.col == c)).filter
        (fun s => s.row == d - 1 - c) := by
    refine List.filter_congr ?_
    intro s hs
    have hsc : s.col = c := by simpa using (List.mem_filter.mp hs).2
    rw [hsc, Bool.eq_iff_iff]
    simp only [beq_iff_eq]
    omega
  rw [he]
  exact count_row_in_col d m hbi c hc (d - 1 - c) (by omega)

theorem boardInv_rows_lt (d : Nat) (m : SquaresMap) (hbi : boardInvariant d m) :
    ∀ s ∈ m.map Prod.snd, s.row < d := by
  intro s hs
  have hc := boardInv_cols_lt d m hbi s hs
  have hperm := hbi.2.2.2.1 s.col hc
  have hmem : s.row ∈ ((m.map Prod.snd).filter (fun q => q.col == s.col)).map Square.row :=
    List.mem_map.mpr ⟨s, List.mem_filter.mpr ⟨hs, by simp⟩, rfl⟩
  exact List.mem_range.mp (hperm.mem_iff.mp hmem)

/-- A line with exactly `d` squares has `d` drawn squares iff all its squares
are drawn. -/
theorem le_filter_drawn_iff (vals : List Square) (d : Nat) (Q : Square → Bool)
    (hlen : (vals.filter Q).length = d) :
    d ≤ (vals.filter (fun s => s.drawn && Q s)).length
      ↔ ∀ s ∈ vals, Q s = true → s.drawn = true := by
  have hf : vals.filter (fun s => s.drawn && Q s)
      = (vals.filter Q).filter (fun s => s.drawn) := by
    rw [List.filter_filter]
  rw [hf]
  constructor
  · intro hle s hs hQ
    have hsub := List.filter_sublist (p := fun s => s.drawn) (vals.filter Q)
    have hle2 := hsub.length_le
    have heq := hsub.eq_of_length (by omega)
    exact List.filter_eq_self.mp heq s (List.mem_filter.mpr ⟨hs, hQ⟩)
  · intro hall
    have heq : (vals.filter Q).filter (fun s => s.drawn) = vals.filter Q :=
      List.filter_eq_self.mpr (fun s hs =>
        hall s (List.mem_of_mem_filter hs) ((List.mem_filter.mp hs).2))
    rw [heq, hlen]

theorem vals_forall (m : SquaresMap) (P : Square → Prop) :
    (∀ s ∈ m.map Prod.snd, P s) ↔ (∀ p ∈ m, P p.2) := by
  constructor
  · intro h p hp
    exact h p.2 (List.mem_map.mpr ⟨p, hp, rfl⟩)
  · intro h s hs
    obtain ⟨p, hp, rfl⟩ := List.mem_map.mp hs
    exact h p hp

theorem rowFull_iff (d : Nat) (m : SquaresMap) (hbi : boardInvariant d m)
    (i : Nat) (hi : i < d) :
    (d ≤ ((m.map Prod.snd).filter (fun s => s.drawn && s.row == i)).length)
      ↔ ∀ p ∈ m, p.2.row = i → p.2.drawn = true := by
  rw [le_filter_drawn_iff _ d _ (boardInv_row_count d m hbi i hi),
    vals_forall m (fun s => (s.row == i) = true → s.drawn = true)]
  constructor
  · intro h p hp he; exact h p hp (by simpa using he)
  · intro h p hp he; exact h p hp (by simpa using he)

theorem colFull_iff (d : Nat) (m : SquaresMap) (hbi : boardInvariant d m)
    (i : Nat) (hi : i < d) :
    (d ≤ ((m.map Prod.snd).filter (fun s => s.drawn && s.col == i)).length)
      ↔ ∀ p ∈ m, p.2.col = i → p.2.drawn = true := by
  rw [le_filter_drawn_iff _ d _ (boardInv_col_count d m hbi i hi),
    vals_forall m (fun s => (s.col == i) = true → s.drawn = true)]
  constructor
  · intro h p hp he; exact h p hp (by simpa using he)
  · intro h p hp he; exact h p hp (by simpa using he)

theorem diagFull_iff (d : Nat) (m : SquaresMap) (hbi : boardInvariant d m) :
    (d ≤ ((m.map Prod.snd).filter (fun s => s.drawn && s.row == s.col)).length)
      ↔ ∀ p ∈ m, p.2.row = p.2.col → p.2.drawn = true := by
  rw [le_filter_drawn_iff _ d _ (boardInv_diag_count d m hbi),
    vals_forall m (fun s => (s.row == s.col) = true → s.drawn = true)]
  constructor
  · intro h p hp he; exact h p hp (by simpa using he)
  · intro h p hp he; exact h p hp (by simpa using he)

theorem antiFull_iff (d : Nat) (m : SquaresMap) (hbi : boardInvariant d m) :
    (d ≤ ((m.map Prod.snd).filter (fun s => s.drawn && s.row + s.col == d - 1)).length)
      ↔ ∀ p ∈ m, p.2.row + p.2.col = d - 1 → p.2.drawn = true := by
  rw [le_filter_drawn_iff _ d _ (boardInv_anti_count d m hbi),
    vals_forall m (fun s => (s.row + s.col == d - 1) = true → s.drawn = true)]
  constructor
  · intro h p hp he; exact h p hp (by simpa using he)
  · intro h p hp he; exact h p hp (by simpa using he)

theorem flagImage_row (d : Nat) (vals : List Square) (p : Nat × Square) :
    ((if shouldFlag d vals p.2 = true
        then (p.1, { p.2 with inBingo := true }) else p)).2.row = p.2.row := by
  by_cases h : shouldFlag d vals p.2 = true <;> simp [h]

theorem flagImage_col (d : Nat) (vals : List Square) (p : Nat × Square) :
    ((if shouldFlag d vals p.2 = true
        then (p.1, { p.2 with inBingo := true }) else p)).2.col = p.2.col := by
  by_cases h : shouldFlag d vals p.2 = true <;> simp [h]

theorem flagImage_inBingo (d : Nat) (vals : List Square) (p : Nat × Square) :
    ((if shouldFlag d vals p.2 = true
        then (p.1, { p.2 with inBingo := true }) else p)).2.inBingo
      = (shouldFlag d vals p.2 || p.2.inBingo) := by
  by_cases h : shouldFlag d vals p.2 = true <;> simp [h]

theorem shouldFlag_drawn (d : Nat) (vals : List Square) (a : Square)
    (h : shouldFlag d vals a = true) : a.drawn = true := by
  unfold shouldFlag at h
  exact ((Bool.and_eq_true _ _).mp h).1

theorem image_forall (m : SquaresMap) (g : Nat × Square → Nat × Square)
    (P : Nat × Square → Prop) :
    (∀ q ∈ m.map g, P q) ↔ (∀ p ∈ m, P (g p)) := by
  constructor
  · intro h p hp
    exact h (g p) (List.mem_map.mpr ⟨p, hp, rfl⟩)
  · intro h q hq
    obtain ⟨p, hp, rfl⟩ := List.mem_map.mp hq
    exact h p hp

/-- C5 counterexample: on a board satisfying the invariants where the single
square is not drawn but carries a stale `inBingo` flag, every square of row 0
is flagged after `checkForBingo` although not every square of row 0 is drawn,
so the claimed equivalence fails as stated. -/
theorem checkForBingo_row_iff_counterexample :
    boardInvariant 1 [(1, (⟨1, 0, 0, false, true⟩ : Square))] ∧
    (∀ p ∈ checkForBingo 1 [(1, (⟨1, 0, 0, false, true⟩ : Square))],
      p.2.row = 0 → p.2.inBingo = true) ∧
    ¬(∀ p ∈ [(1, (⟨1, 0, 0, false, true⟩ : Square))], p.2.row = 0 → p.2.drawn = true) :=
  ⟨by decide, by decide, by decide⟩

/-- C5 (amended with the reachable-state hypothesis that `inBingo` squares
are drawn): after `checkForBingo`, all squares of a row are flagged iff the
row is fully drawn, and likewise for columns and the two diagonals. -/
theorem checkForBingo_line_iff (d : Nat) (m : SquaresMap) (hbi : boardInvariant d m)
    (hib : ∀ p ∈ m, p.2.inBingo = true → p.2.drawn = true) :
    (∀ i < d,
      ((∀ p ∈ checkForBingo d m, p.2.row = i → p.2.inBingo = true)
        ↔ (∀ p ∈ m, p.2.row = i → p.2.drawn = true)) ∧
      ((∀ p ∈ checkForBingo d m, p.2.col = i → p.2.inBingo = true)
        ↔ (∀ p ∈ m, p.2.col = i → p.2.drawn = true))) ∧
    ((∀ p ∈ checkForBingo d m, p.2.row = p.2.col → p.2.inBingo = true)
      ↔ (∀ p ∈ m, p.2.row = p.2.col → p.2.drawn = true)) ∧
    ((∀ p ∈ checkForBingo d m, p.2.row + p.2.col = d - 1 → p.2.inBingo = true)
      ↔ (∀ p ∈ m, p.2.row + p.2.col = d - 1 → p.2.drawn = true)) := by
  rw [checkForBingo_spec d m hbi.1 hbi.2.1]
  rw [image_forall m _ (fun q => q.2.row = q.2.col → q.2.inBingo = true),
    image_forall m _ (fun q => q.2.row + q.2.col = d - 1 → q.2.inBingo = true)]
  refine ⟨?_, ?_, ?_⟩
  · intro i hi
    rw [image_forall m _ (fun q => q.2.row = i → q.2.inBingo = true),
      image_forall m _ (fun q => q.2.col = i → q.2.inBingo = true)]
    constructor
    · constructor
      · intro hflag p hp hrow
        have h1 := hflag p hp
        rw [flagImage_row, flagImage_inBingo] at h1
        rcases Bool.or_eq_true_iff.mp (h1 hrow) with h2 | h2
        · exact shouldFlag_drawn d _ p.2 h2
        · exact hib p hp h2
      · intro hall p hp
        rw [flagImage_row, flagImage_inBingo]
        intro hrow
        have hsf : shouldFlag d (m.map Prod.snd) p.2 = true := by
          unfold shouldFlag
          simp only [Bool.and_eq_true, Bool.or_eq_true, decide_eq_true_eq, beq_iff_eq]
          refine ⟨hall p hp hrow, Or.inl (Or.inl (Or.inl ⟨?_, ?_⟩))⟩
          · rw [hrow]; exact hi
          · rw [hrow]; exact (rowFull_iff d m hbi i hi).mpr hall
        rw [hsf, Bool.true_or]
    · constructor
      · intro hflag p hp hcol
        have h1 := hflag p hp
        rw [flagImage_col, flagImage_inBingo] at h1
        rcases Bool.or_eq_true_iff.mp (h1 hcol) with h2 | h2
        · exact shouldFlag_drawn d _ p.2 h2
        · exact hib p hp h2
      · intro hall p hp
        rw [flagImage_col, flagImage_inBingo]
        intro hcol
        have hsf : shouldFlag d (m.map Prod.snd) p.2 = true := by
          unfold shouldFlag
          simp only [Bool.and_eq_true, Bool.or_eq_true, decide_eq_true_eq, beq_iff_eq]
          refine ⟨hall p hp hcol, Or.inl (Or.inl (Or.inr ⟨?_, ?_⟩))⟩
          · rw [hcol]; exact hi
          · rw [hcol]; exact (colFull_iff d m hbi i hi).mpr hall
        rw [hsf, Bool.true_or]
  · constructor
    · intro hflag p hp heq
      have h1 := hflag p hp
      rw [flagImage_row, flagImage_col, flagImage_inBingo] at h1
      rcases Bool.or_eq_true_iff.mp (h1 heq) with h2 | h2
      · exact shouldFlag_drawn d _ p.2 h2
      · exact hib p hp h2
    · intro hall p hp
      rw [flagImage_row, flagImage_col, flagImage_inBingo]
      intro heq
      have hsf : shouldFlag d (m.map Prod.snd) p.2 = true := by
        unfold shouldFlag
        simp only [Bool.and_eq_true, Bool.or_eq_true, decide_eq_true_eq, beq_iff_eq]
        exact ⟨hall p hp heq, Or.inl (Or.inr ⟨heq, (diagFull_iff d m hbi).mpr hall⟩)⟩
      rw [hsf, Bool.true_or]
  · constructor
    · intro hflag p hp hsum
      have h1 := hflag p hp
      rw [flagImage_row, flagImage_col, flagImage_inBingo] at h1
      rcases Bool.or_eq_true_iff.mp (h1 hsum) with h2 | h2
      · exact shouldFlag_drawn d _ p.2 h2
      · exact hib p hp h2
    · intro hall p hp
      rw [flagImage_row, flagImage_col, flagImage_inBingo]
      intro hsum
      have hsf : shouldFlag d (m.map Prod.snd) p.2 = true := by
        unfold shouldFlag
        simp only [Bool.and_eq_true, Bool.or_eq_true, decide_eq_true_eq, beq_iff_eq]
        exact ⟨hall p hp hsum, Or.inr ⟨hsum, (antiFull_iff d m hbi).mpr hall⟩⟩
      rw [hsf, Bool.true_or]

/-- C5 witness: a 1×1 board with its square drawn. -/
theorem checkForBingo_line_iff_witness :
    boardInvariant 1 [(1, (⟨1, 0, 0, true, false⟩ : Square))] ∧
    (∀ p ∈ [(1, (⟨1, 0, 0, true, false⟩ : Square))],
      p.2.inBingo = true → p.2.drawn = true) ∧
    ((∀ i < 1,
      ((∀ p ∈ checkForBingo 1 [(1, (⟨1, 0, 0, true, false⟩ : Square))],
          p.2.row = i → p.2.inBingo = true)
        ↔ (∀ p ∈ [(1, (⟨1, 0, 0, true, false⟩ : Square))],
          p.2.row = i → p.2.drawn = true)) ∧
      ((∀ p ∈ checkForBingo 1 [(1, (⟨1, 0, 0, true, false⟩ : Square))],
          p.2.col = i → p.2.inBingo = true)
        ↔ (∀ p ∈ [(1, (⟨1, 0, 0, true, false⟩ : Square))],
          p.2.col = i → p.2.drawn = true))) ∧
    ((∀ p ∈ checkForBingo 1 [(1, (⟨1, 0, 0, true, false⟩ : Square))],
        p.2.row = p.2.col → p.2.inBingo = true)
      ↔ (∀ p ∈ [(1, (⟨1, 0, 0, true, false⟩ : Square))],
        p.2.row = p.2.col → p.2.drawn = true)) ∧
    ((∀ p ∈ checkForBingo 1 [(1, (⟨1, 0, 0, true, false⟩ : Square))],
        p.2.row + p.2.col = 1 - 1 → p.2.inBingo = true)
      ↔ (∀ p ∈ [(1, (⟨1, 0, 0, true, false⟩ : Square))],
        p.2.row + p.2.col = 1 - 1 → p.2.drawn = true))) :=
  ⟨by decide, by decide,
    checkForBingo_line_iff 1 [(1, (⟨1, 0, 0, true, false⟩ : Square))]
      (by decide) (by decide)⟩

theorem flagImage_fst (d : Nat) (vals : List Square) (p : Nat × Square) :
    ((if shouldFlag d vals p.2 = true
        then (p.1, { p.2 with inBingo := true }) else p)).1 = p.1 := by
  by_cases h : shouldFlag d vals p.2 = true <;> simp [h]

/-- C7: on a 5×5 board satisfying the invariants, if the five main-diagonal
squares `(0,0) … (4,4)` are all drawn then the win detector flags them all,
and likewise for the anti-diagonal squares `(0,4) … (4,0)`. -/
theorem checkForBingo_diagonals_dim5 (m : SquaresMap) (hbi : boardInvariant 5 m) :
    ((∀ p ∈ m, (p.2.row, p.2.col) ∈
        ([(0, 0), (1, 1), (2, 2), (3, 3), (4, 4)] : List (Nat × Nat)) →
        p.2.drawn = true) →
      ∀ p ∈ checkForBingo 5 m, (p.2.row, p.2.col) ∈
        ([(0, 0), (1, 1), (2, 2), (3, 3), (4, 4)] : List (Nat × Nat)) →
        p.2.inBingo = true) ∧
    ((∀ p ∈ m, (p.2.row, p.2.col) ∈
        ([(0, 4), (1, 3), (2, 2), (3, 1), (4, 0)] : List (Nat × Nat)) →
        p.2.drawn = true) →
      ∀ p ∈ checkForBingo 5 m, (p.2.row, p.2.col) ∈
        ([(0, 4), (1, 3), (2, 2), (3, 1), (4, 0)] : List (Nat × Nat)) →
        p.2.inBingo = true) := by
  have hrows := boardInv_rows_lt 5 m hbi
  have hcols := boardInv_cols_lt 5 m hbi
  have hdiagmem : ∀ q ∈ m, (q.2.row = q.2.col ↔ (q.2.row, q.2.col) ∈
      ([(0, 0), (1, 1), (2, 2), (3, 3), (4, 4)] : List (Nat × Nat))) := by
    intro q hq
    have h1 := hrows q.2 (List.mem_map.mpr ⟨q, hq, rfl⟩)
    have h2 := hcols q.2 (List.mem_map.mpr ⟨q, hq, rfl⟩)
    simp only [List.mem_cons, List.not_mem_nil, or_false, Prod.mk.injEq]
    omega
  have hantimem : ∀ q ∈ m, (q.2.row + q.2.col = 4 ↔ (q.2.row, q.2.col) ∈
      ([(0, 4), (1, 3), (2, 2), (3, 1), (4, 0)] : List (Nat × Nat))) := by
    intro q hq
    have h1 := hrows q.2 (List.mem_map.mpr ⟨q, hq, rfl⟩)
    have h2 := hcols q.2 (List.mem_map.mpr ⟨q, hq, rfl⟩)
    simp only [List.mem_cons, List.not_mem_nil, or_false, Prod.mk.injEq]
    omega
  constructor
  · intro hall
    rw [checkForBingo_spec 5 m hbi.1 hbi.2.1]
    rw [image_forall m _ (fun q => (q.2.row, q.2.col) ∈
      ([(0, 0), (1, 1), (2, 2), (3, 3), (4, 4)] : List (Nat × Nat)) → q.2.inBingo = true)]
    intro p hp
    rw [flagImage_row, flagImage_col, flagImage_inBingo]
    intro hpair
    have heq : p.2.row = p.2.col := (hdiagmem p hp).mpr hpair
    have hall' : ∀ q ∈ m, q.2.row = q.2.col → q.2.drawn = true := by
      intro q hq he
      exact hall q hq ((hdiagmem q hq).mp he)
    have hsf : shouldFlag 5 (m.map Prod.snd) p.2 = true := by
      unfold shouldFlag
      simp only [Bool.and_eq_true, Bool.or_eq_true, decide_eq_true_eq, beq_iff_eq]
      exact ⟨hall' p hp heq, Or.inl (Or.inr ⟨heq, (diagFull_iff 5 m hbi).mpr hall'⟩)⟩
    rw [hsf, Bool.true_or]
  · intro hall
    rw [checkForBingo_spec 5 m hbi.1 hbi.2.1]
    rw [image_forall m _ (fun q => (q.2.row, q.2.col) ∈
      ([(0, 4), (1, 3), (2, 2), (3, 1), (4, 0)] : List (Nat × Nat)) → q.2.inBingo = true)]
    intro p hp
    rw [flagImage_row, flagImage_col, flagImage_inBingo]
    intro hpair
    have hsum : p.2.row + p.2.col = 4 := (hantimem p hp).mpr hpair
    have hall' : ∀ q ∈ m, q.2.row + q.2.col = 5 - 1 → q.2.drawn = true := by
      intro q hq he
      exact hall q hq ((hantimem q hq).mp he)
    have hsf : shouldFlag 5 (m.map Prod.snd) p.2 = true := by
      unfold shouldFlag
      simp only [Bool.and_eq_true, Bool.or_eq_true, decide_eq_true_eq, beq_iff_eq]
      exact ⟨hall' p hp hsum, Or.inr ⟨hsum, (antiFull_iff 5 m hbi).mpr hall'⟩⟩
    rw [hsf, Bool.true_or]

/-- A concrete 5×5 board (identity shuffle) with both diagonals drawn. -/
def drawnDiagBoard : SquaresMap :=
  (buildSquaresMap 5 (fun _ l => l)).map
    (fun p => if p.2.row == p.2.col || p.2.row + p.2.col == 4
      then (p.1, { p.2 with drawn := true }) else p)

/-- C7 witness: the concrete board `drawnDiagBoard`. -/
theorem checkForBingo_diagonals_dim5_witness :
    boardInvariant 5 drawnDiagBoard ∧
    (∀ p ∈ drawnDiagBoard, (p.2.row, p.2.col) ∈
      ([(0, 0), (1, 1), (2, 2), (3, 3), (4, 4)] : List (Nat × Nat)) →
      p.2.drawn = true) ∧
    (∀ p ∈ drawnDiagBoard, (p.2.row, p.2.col) ∈
      ([(0, 4), (1, 3), (2, 2), (3, 1), (4, 0)] : List (Nat × Nat)) →
      p.2.drawn = true) ∧
    (∀ p ∈ checkForBingo 5 drawnDiagBoard, (p.2.row, p.2.col) ∈
      ([(0, 0), (1, 1), (2, 2), (3, 3), (4, 4)] : List (Nat × Nat)) →
      p.2.inBingo = true) ∧
    (∀ p ∈ checkForBingo 5 drawnDiagBoard, (p.2.row, p.2.col) ∈
      ([(0, 4), (1, 3), (2, 2), (3, 1), (4, 0)] : List (Nat × Nat)) →
      p.2.inBingo = true) :=
  ⟨by decide, by decide, by decide,
    (checkForBingo_diagonals_dim5 drawnDiagBoard (by decide)).1 (by decide),
    (checkForBingo_diagonals_dim5 drawnDiagBoard (by decide)).2 (by decide)⟩

/-- C9: the detector `checkForBingo` neither adds nor removes squares (same keys in the
same order), and every square lying on no fully-drawn row, column or
diagonal is returned unchanged. -/
theorem checkForBingo_frame (d : Nat) (m : SquaresMap) (hbi : boardInvariant d m) :
    mapKeys (checkForBingo d m) = mapKeys m ∧
    ∀ p ∈ m,
      ¬(∀ q ∈ m, q.2.row = p.2.row → q.2.drawn = true) →
      ¬(∀ q ∈ m, q.2.col = p.2.col → q.2.drawn = true) →
      (p.2.row = p.2.col → ¬(∀ q ∈ m, q.2.row = q.2.col → q.2.drawn = true)) →
      (p.2.row + p.2.col = d - 1 →
        ¬(∀ q ∈ m, q.2.row + q.2.col = d - 1 → q.2.drawn = true)) →
      mapGet (checkForBingo d m) p.1 = some p.2 := by
  rw [checkForBingo_spec d m hbi.1 hbi.2.1]
  constructor
  · unfold mapKeys
    rw [List.map_map]
    refine List.map_congr_left ?_
    intro p _
    exact flagImage_fst d (m.map Prod.snd) p
  · intro p hp hnrow hncol hndiag hnanti
    have hsf : shouldFlag d (m.map Prod.snd) p.2 = false := by
      rw [Bool.eq_false_iff]
      intro habs
      unfold shouldFlag at habs
      simp only [Bool.and_eq_true, Bool.or_eq_true, decide_eq_true_eq, beq_iff_eq] at habs
      rcases habs with ⟨_, (((⟨hrd, hlen⟩ | ⟨hcd, hlen⟩) | ⟨heq, hlen⟩) | ⟨hsum, hlen⟩)⟩
      · exact hnrow ((rowFull_iff d m hbi p.2.row hrd).mp hlen)
      · exact hncol ((colFull_iff d m hbi p.2.col hcd).mp hlen)
      · exact hndiag heq ((diagFull_iff d m hbi).mp hlen)
      · exact hnanti hsum ((antiFull_iff d m hbi).mp hlen)
    have himg : (fun p => if shouldFlag d (m.map Prod.snd) p.2 = true
        then (p.1, { p.2 with inBingo := true }) else p) p = p := by
      simp [hsf]
    have hmem : p ∈ m.map (fun p => if shouldFlag d (m.map Prod.snd) p.2 = true
        then (p.1, { p.2 with inBingo := true }) else p) := by
      rw [← himg]
      exact List.mem_map.mpr ⟨p, hp, rfl⟩
    have hnd' : (mapKeys (m.map (fun p => if shouldFlag d (m.map Prod.snd) p.2 = true
        then (p.1, { p.2 with inBingo := true }) else p))).Nodup := by
      have hk : mapKeys (m.map (fun p => if shouldFlag d (m.map Prod.snd) p.2 = true
          then (p.1, { p.2 with inBingo := true }) else p)) = mapKeys m := by
        unfold mapKeys
        rw [List.map_map]
        exact List.map_congr_left (fun q _ => flagImage_fst d (m.map Prod.snd) q)
      rw [hk]
      exact hbi.1
    exact mapGet_eq_some_of_mem _ p.1 p.2 hnd' hmem

/-- C9 witness: a 1×1 board whose square is not drawn. -/
theorem checkForBingo_frame_witness :
    boardInvariant 1 [(1, (⟨1, 0, 0, false, false⟩ : Square))] ∧
    (mapKeys (checkForBingo 1 [(1, (⟨1, 0, 0, false, false⟩ : Square))])
      = mapKeys [(1, (⟨1, 0, 0, false, false⟩ : Square))] ∧
    ∀ p ∈ [(1, (⟨1, 0, 0, false, false⟩ : Square))],
      ¬(∀ q ∈ [(1, (⟨1, 0, 0, false, false⟩ : Square))],
        q.2.row = p.2.row → q.2.drawn = true) →
      ¬(∀ q ∈ [(1, (⟨1, 0, 0, false, false⟩ : Square))],
        q.2.col = p.2.col → q.2.drawn = true) →
      (p.2.row = p.2.col → ¬(∀ q ∈ [(1, (⟨1, 0, 0, false, false⟩ : Square))],
        q.2.row = q.2.col → q.2.drawn = true)) →
      (p.2.row + p.2.col = 1 - 1 →
        ¬(∀ q ∈ [(1, (⟨1, 0, 0, false, false⟩ : Square))],
          q.2.row + q.2.col = 1 - 1 → q.2.drawn = true)) →
      mapGet (checkForBingo 1 [(1, (⟨1, 0, 0, false, false⟩ : Square))]) p.1
        = some p.2) :=
  ⟨by decide, checkForBingo_frame 1 [(1, (⟨1, 0, 0, false, false⟩ : Square))] (by decide)⟩

/-! ### Monotonicity of the in-game operations -/

/-- Relation that `t` extends `s`: identical `value`/`row`/`col`, and `drawn`/`inBingo`
only ever go from `false` to `true`. -/
def squareLE (s t : Square) : Prop :=
  s.value = t.value ∧ s.row = t.row ∧ s.col = t.col ∧
  (s.drawn = true → t.drawn = true) ∧ (s.inBingo = true → t.inBingo = true)

/-- Every square of `m` survives into `m'` with only monotone changes. -/
def boardLE (m m' : SquaresMap) : Prop :=
  ∀ p ∈ m, ∃ t, mapGet m' p.1 = some t ∧ squareLE p.2 t

theorem squareLE_refl (s : Square) : squareLE s s :=
  ⟨rfl, rfl, rfl, id, id⟩

theorem squareLE_trans (s t u : Square) (h1 : squareLE s t) (h2 : squareLE t u) :
    squareLE s u :=
  ⟨h1.1.trans h2.1, h1.2.1.trans h2.2.1, h1.2.2.1.trans h2.2.2.1,
    fun h => h2.2.2.2.1 (h1.2.2.2.1 h), fun h => h2.2.2.2.2 (h1.2.2.2.2 h)⟩

theorem boardLE_refl (m : SquaresMap) (hnd : (mapKeys m).Nodup) : boardLE m m := by
  intro p hp
  exact ⟨p.2, mapGet_eq_some_of_mem m p.1 p.2 hnd hp, squareLE_refl p.2⟩

theorem boardLE_trans (m₁ m₂ m₃ : SquaresMap)
    (h1 : boardLE m₁ m₂) (h2 : boardLE m₂ m₃) : boardLE m₁ m₃ := by
  intro p hp
  obtain ⟨t, hget, hle⟩ := h1 p hp
  obtain ⟨u, hget2, hle2⟩ := h2 (p.1, t) (mapGet_mem m₂ p.1 t hget)
  exact ⟨u, hget2, squareLE_trans p.2 t u hle hle2⟩

theorem boardLE_mapSet_existing (m : SquaresMap) (k : Nat) (cs sq : Square)
    (hnd : (mapKeys m).Nodup) (hcs : (k, cs) ∈ m) (hle : squareLE cs sq) :
    boardLE m (mapSet m k sq) := by
  have hkk : k ∈ mapKeys m := List.mem_map.mpr ⟨(k, cs), hcs, rfl⟩
  have hnd' : (mapKeys (mapSet m k sq)).Nodup := by
    rw [mapKeys_mapSet_of_mem m k sq hkk]
    exact hnd
  have hmem : (k, sq) ∈ mapSet m k sq := by
    rw [mapSet_of_mem_keys m k sq hkk]
    refine List.mem_map.mpr ⟨(k, cs), hcs, ?_⟩
    simp
  intro p hp
  by_cases hk : p.1 = k
  · have hpcs : p.2 = cs := by
      refine entry_unique m k p.2 cs hnd ?_ hcs
      rw [← hk]
      exact hp
    refine ⟨sq, ?_, ?_⟩
    · rw [hk]
      exact mapGet_eq_some_of_mem _ k sq hnd' hmem
    · rw [hpcs]
      exact hle
  · have hpm : p ∈ mapSet m k sq := by
      rw [mapSet_of_mem_keys m k sq hkk]
      refine List.mem_map.mpr ⟨p, hp, ?_⟩
      simp [hk]
    exact ⟨p.2, mapGet_eq_some_of_mem _ p.1 p.2 hnd' hpm, squareLE_refl p.2⟩

theorem boardLE_checkForBingo (d : Nat) (m : SquaresMap)
    (hnd : (mapKeys m).Nodup) (hkv : keyedByValue m) :
    boardLE m (checkForBingo d m) := by
  rw [checkForBingo_spec d m hnd hkv]
  have hk : mapKeys (m.map (fun p => if shouldFlag d (m.map Prod.snd) p.2 = true
      then (p.1, { p.2 with inBingo := true }) else p)) = mapKeys m := by
    unfold mapKeys
    rw [List.map_map]
    exact List.map_congr_left (fun q _ => flagImage_fst d (m.map Prod.snd) q)
  have hnd' : (mapKeys (m.map (fun p => if shouldFlag d (m.map Prod.snd) p.2 = true
      then (p.1, { p.2 with inBingo := true }) else p))).Nodup := by
    rw [hk]; exact hnd
  intro p hp
  set g := fun p : Nat × Square => if shouldFlag d (m.map Prod.snd) p.2 = true
      then (p.1, { p.2 with inBingo := true }) else p with hg
  have hmem : (p.1, (g p).2) ∈ m.map g := by
    have he : (p.1, (g p).2) = g p := by
      refine Prod.ext ?_ rfl
      exact (flagImage_fst d (m.map Prod.snd) p).symm
    rw [he]
    exact List.mem_map.mpr ⟨p, hp, rfl⟩
  refine ⟨(g p).2, mapGet_eq_some_of_mem _ p.1 (g p).2 hnd' hmem, ?_⟩
  by_cases hsf : shouldFlag d (m.map Prod.snd) p.2 = true
  · have : g p = (p.1, { p.2 with inBingo := true }) := by rw [hg]; simp [hsf]
    rw [this]
    exact ⟨rfl, rfl, rfl, id, fun _ => rfl⟩
  · have : g p = p := by rw [hg]; simp [hsf]
    rw [this]
    exact squareLE_refl p.2

/-- C6: within a game, `flagDrawn`, `flagInBingo`, the win detector and
`draw` preserve every square, never clear `drawn` or `inBingo`, and never
change `value`, `row` or `col`. -/
theorem game_ops_monotone (d : Nat) (sh : Nat → List Nat → List Nat)
    (m : SquaresMap) (H : Finset Nat) (k s : Nat)
    (hnd : (mapKeys m).Nodup) (hkv : keyedByValue m) :
    boardLE m (squaresReducer sh m (ActionType.flagDrawn s)) ∧
    boardLE m (squaresReducer sh m (ActionType.flagInBingo s)) ∧
    boardLE m (checkForBingo d m) ∧
    boardLE m (draw d m H k).1 := by
  refine ⟨?_, ?_, boardLE_checkForBingo d m hnd hkv, ?_⟩
  · simp only [squaresReducer]
    cases hg : mapGet m s with
    | none => exact boardLE_refl m hnd
    | some cs =>
        exact boardLE_mapSet_existing m s cs { cs with drawn := true } hnd
          (mapGet_mem m s cs hg) ⟨rfl, rfl, rfl, fun _ => rfl, id⟩
  · simp only [squaresReducer]
    cases hg : mapGet m s with
    | none => exact boardLE_refl m hnd
    | some cs =>
        exact boardLE_mapSet_existing m s cs { cs with inBingo := true } hnd
          (mapGet_mem m s cs hg) ⟨rfl, rfl, rfl, id, fun _ => rfl⟩
  · simp only [draw]
    by_cases hc : ((allNumbers d).filter (fun entry => !(decide (entry ∈ H)))).length = 0
    · rw [if_pos hc]
      exact boardLE_refl m hnd
    · rw [if_neg hc]
      cases hg : mapGet m (((allNumbers d).filter (fun entry => !(decide (entry ∈ H)))).getD
          (k % ((allNumbers d).filter (fun entry => !(decide (entry ∈ H)))).length) 0) with
      | none => exact boardLE_refl m hnd
      | some rs =>
          have hrs : (_, rs) ∈ m := mapGet_mem m _ rs hg
          have hval : rs.value = _ := hkv _ hrs
          have hrs' : (rs.value, rs) ∈ m := by rw [hval]; exact hrs
          have hle1 : boardLE m (mapSet m rs.value { rs with drawn := true }) :=
            boardLE_mapSet_existing m rs.value rs { rs with drawn := true } hnd hrs'
              ⟨rfl, rfl, rfl, fun _ => rfl, id⟩
          have hkk : rs.value ∈ mapKeys m := List.mem_map.mpr ⟨(rs.value, rs), hrs', rfl⟩
          have hnd2 : (mapKeys (mapSet m rs.value { rs with drawn := true })).Nodup := by
            rw [mapKeys_mapSet_of_mem m rs.value _ hkk]
            exact hnd
          have hkv2 : keyedByValue (mapSet m rs.value { rs with drawn := true }) :=
            keyedByValue_mapSet m rs.value _ hkv rfl
          exact boardLE_trans m _ _ hle1
            (boardLE_checkForBingo d _ hnd2 hkv2)

/-- C6 witness at a small concrete state. -/
theorem game_ops_monotone_witness :
    (mapKeys [(1, (⟨1, 0, 0, false, false⟩ : Square))]).Nodup ∧
    keyedByValue [(1, (⟨1, 0, 0, false, false⟩ : Square))] ∧
    (boardLE [(1, (⟨1, 0, 0, false, false⟩ : Square))]
      (squaresReducer (fun _ l => l) [(1, (⟨1, 0, 0, false, false⟩ : Square))]
        (ActionType.flagDrawn 1)) ∧
    boardLE [(1, (⟨1, 0, 0, false, false⟩ : Square))]
      (squaresReducer (fun _ l => l) [(1, (⟨1, 0, 0, false, false⟩ : Square))]
        (ActionType.flagInBingo 1)) ∧
    boardLE [(1, (⟨1, 0, 0, false, false⟩ : Square))]
      (checkForBingo 1 [(1, (⟨1, 0, 0, false, false⟩ : Square))]) ∧
    boardLE [(1, (⟨1, 0, 0, false, false⟩ : Square))]
      (draw 1 [(1, (⟨1, 0, 0, false, false⟩ : Square))] ∅ 0).1) :=
  ⟨by decide, by decide,
    game_ops_monotone 1 (fun _ l => l) [(1, (⟨1, 0, 0, false, false⟩ : Square))]
      ∅ 0 1 (by decide) (by decide)⟩
